import Mathlib

/-!
# Verification of the `tim` rope (AVL-balanced text buffer)

This file gives a shallow embedding of the rope implementation in
`src/editor.c` and proves / refutes the specification claims about it.

Two models are used:

* A pure tree model (`Rope`): nodes carry their four stored metadata
  fields (`weight`, `total_len`, `height`, `newlines`) exactly as the C
  struct does, and every operation recomputes them with the same
  formulas and in the same order as the C code.  Per the documented data
  model (internal nodes have exactly two children, leaves none), a rope
  is a two-constructor tree; `NULL` ropes are `Option Rope`.  Parent
  pointers are navigational only, so in the pure model the child-slot
  write a rotation performs through the parent pointer is carried out at
  the call site (in `rebalance`), which is where the C code relies on it.

* A heap model (`CNode`, `Heap`): nodes addressed by naturals with all
  eight C struct fields including `parent`, and the rotation primitives
  written as heap transformers following `rotate_right` / `rotate_left`
  statement by statement.  This model captures pointer aliasing and is
  used for the rotation claims, in particular for the corner where
  `B == NULL` and the C code leaves `y->left` pointing at `x`.
-/

/-- The four derived attributes every `RopeNode` carries
(`int weight; int total_len; int height; int newlines;` in C). -/
structure Meta where
  weight : Int
  total_len : Int
  height : Int
  newlines : Int
deriving DecidableEq, Repr

/-- A rope: a leaf holding text or an internal node with exactly two
children (the documented data model of `RopeNode`; `str == NULL` on
internal nodes, `left == right == NULL` on leaves). -/
inductive Rope where
  | leaf (m : Meta) (str : List Char)
  | node (m : Meta) (left : Rope) (right : Rope)
deriving DecidableEq, Repr

namespace Rope

/-- Stored `weight` field of a node. -/
def weight : Rope → Int
  | .leaf m _ => m.weight
  | .node m _ _ => m.weight

/-- Stored `total_len` field of a node. -/
def total_len : Rope → Int
  | .leaf m _ => m.total_len
  | .node m _ _ => m.total_len

/-- Stored `height` field of a node. -/
def height : Rope → Int
  | .leaf m _ => m.height
  | .node m _ _ => m.height

/-- Stored `newlines` field of a node. -/
def newlines : Rope → Int
  | .leaf m _ => m.newlines
  | .node m _ _ => m.newlines

end Rope

/-- `string_length` from editor.c: `strlen` of the stored text
(`0` for `NULL`, which in the tree model is the internal-node case where
`str == NULL`; leaves always carry their list). -/
def string_length (s : List Char) : Int := (s.length : Int)

/-- `count_newlines` from editor.c. -/
def count_newlines (s : List Char) : Int :=
  ((s.countP (fun c => c = '\n') : Nat) : Int)

/-- `node_height` from editor.c: stored height, `0` for `NULL`. -/
def node_height : Option Rope → Int
  | none => 0
  | some t => t.height

/-- `is_leaf` from editor.c: `false` for `NULL`, otherwise true iff both
children are `NULL`. -/
def is_leaf : Option Rope → Bool
  | none => false
  | some (.leaf _ _) => true
  | some (.node _ _ _) => false

/-- `update_metadata` from editor.c: recomputes `total_len`, `weight`,
`height` and `newlines` of one node from its own text (leaf case) or the
stored fields of its direct children (internal case). -/
def update_metadata : Rope → Rope
  | .leaf _ s =>
      let len := string_length s
      .leaf ⟨len, len, 1, count_newlines s⟩ s
  | .node _ l r =>
      let left_len := l.total_len
      let right_len := r.total_len
      .node ⟨left_len, left_len + right_len,
             1 + max (node_height (some l)) (node_height (some r)),
             l.newlines + r.newlines⟩ l r

/-- `create_leaf` from editor.c: a freshly `calloc`ed node (all fields
zero), the text copied in, then `update_metadata`. -/
def create_leaf (text : List Char) : Rope :=
  update_metadata (.leaf ⟨0, 0, 0, 0⟩ text)

/-- `get_skew` from editor.c: height difference between right and left
children (`0` for `NULL` and for leaves, whose children are `NULL`). -/
def get_skew : Option Rope → Int
  | none => 0
  | some (.leaf _ _) => 0
  | some (.node _ l r) => node_height (some r) - node_height (some l)

/-- `rotate_right` from editor.c on the subtree rooted at `node`
(the parent-pointer handling rewires the caller's child slot; in the
pure model the only caller, `rebalance`, performs that slot write
itself).  Requires `y = node` and `x = y->left` to be present; the C
code reads `B = x->right`, makes `y` the right child of `x`, moves `B`
under `y` when it is present, and recomputes metadata for `y` first and
then for `x`.  When `x` is a leaf (`B == NULL`), the C code leaves
`y->left` pointing at `x` while setting `x->right = y`, creating a cycle
that no tree can represent; that corner is modelled faithfully by
`rotate_right_h` in the heap model below and is unreachable from
metadata-correct inputs (leaves stored height 1 never trigger it via
`rebalance`); here it is mapped to `none`. -/
def rotate_right : Option Rope → Option Rope
  | none => none
  | some (.leaf _ _) => none
  | some (.node _my x c) =>
      match x with
      | .leaf _ _ => none
      | .node _mx a b =>
          let y2 := update_metadata (.node _my b c)
          let x2 := update_metadata (.node _mx a y2)
          some x2

/-- `rotate_left` from editor.c, the mirror of `rotate_right` (same
conventions as `rotate_right` above; the `B == NULL` corner, where the C
code leaves `x->right` pointing at `y`, is mapped to `none`). -/
def rotate_left : Option Rope → Option Rope
  | none => none
  | some (.leaf _ _) => none
  | some (.node _mx a y) =>
      match y with
      | .leaf _ _ => none
      | .node _my b c =>
          let x2 := update_metadata (.node _mx a b)
          let y2 := update_metadata (.node _my x2 c)
          some y2

/-- `rebalance` from editor.c: update the node's metadata, then fix a
skew of `±2` with one or two rotations; any other skew (including
magnitudes `≥ 3`) falls through to `return node`.  The C code's
double-rotation step `update_metadata(rotate_right(node->right))`
rewrites `node->right` through the parent pointer; the pure model
performs that child-slot write here (and leaves the child unchanged when
the rotation returns `NULL`, as the C code then never wrote the slot). -/
def rebalance : Option Rope → Option Rope
  | none => none
  | some n =>
      let node := update_metadata n
      match node with
      | .leaf m s => some (.leaf m s)
      | .node m l r =>
          let skew := node_height (some r) - node_height (some l)
          if skew = 2 then
            let right_skew := get_skew (some r)
            if right_skew = 1 ∨ right_skew = 0 then
              match rotate_left (some (.node m l r)) with
              | some result => some (update_metadata result)
              | none => none
            else if right_skew = -1 then
              let node2 :=
                match rotate_right (some r) with
                | some x => Rope.node m l (update_metadata x)
                | none => Rope.node m l r
              match rotate_left (some node2) with
              | some result => some (update_metadata result)
              | none => none
            else
              some (.node m l r)
          else if skew = -2 then
            let left_skew := get_skew (some l)
            if left_skew = -1 ∨ left_skew = 0 then
              match rotate_right (some (.node m l r)) with
              | some result => some (update_metadata result)
              | none => none
            else if left_skew = 1 then
              let node2 :=
                match rotate_left (some l) with
                | some y => Rope.node m (update_metadata y) r
                | none => Rope.node m l r
              match rotate_right (some node2) with
              | some result => some (update_metadata result)
              | none => none
            else
              some (.node m l r)
          else
            some (.node m l r)

/-- Number of nodes of a rope; used only to supply sufficient fuel to
`concatF` (the C `concat` recurses into a child each step, so the node
count of the arguments bounds the recursion depth). -/
def sizeN : Rope → Nat
  | .leaf _ _ => 1
  | .node _ l r => 1 + sizeN l + sizeN r

/-- `concat` from editor.c, with an explicit fuel so the recursion is
structural (the C function's recursion is bounded by the node count of
its arguments; `concat` below instantiates the fuel with exactly that
bound, and `concat_spec` shows the fuel-exhaustion branch is never
taken).  Cases in C order: `NULL` left, `NULL` right, `skew ∈ [-1,1]`
(fresh internal node over both), `skew ≥ 2` (recurse into `R->left`,
update metadata, rebalance), `skew ≤ -2` (mirror), trailing
`return NULL`.  In the `skew ≥ 2` case the C code writes the recursion's
result into `right_subtree->left`; when `right_subtree` is a leaf that
write would give it a single child, which no tree represents — that
corner (unreachable from metadata-correct inputs, whose leaves store
height 1) and fuel exhaustion are mapped to `none`. -/
def concatF : Nat → Option Rope → Option Rope → Option Rope
  | _, none, right_subtree => right_subtree
  | _, some left_subtree, none => some left_subtree
  | 0, some _, some _ => none
  | fuel + 1, some left_subtree, some right_subtree =>
      let skew := node_height (some right_subtree) -
                  node_height (some left_subtree)
      if -1 ≤ skew ∧ skew ≤ 1 then
        some (update_metadata (.node ⟨0, 0, 0, 0⟩ left_subtree right_subtree))
      else if 2 ≤ skew then
        match right_subtree with
        | .leaf _ _ => none
        | .node m rl rr =>
            match concatF fuel (some left_subtree) (some rl) with
            | some newLeft =>
                rebalance (some (update_metadata (.node m newLeft rr)))
            | none => none
      else if skew ≤ -2 then
        match left_subtree with
        | .leaf _ _ => none
        | .node m ll lr =>
            match concatF fuel (some lr) (some right_subtree) with
            | some newRight =>
                rebalance (some (update_metadata (.node m ll newRight)))
            | none => none
      else
        none

/-- Fuel for `concatF` sufficient for the given arguments. -/
def fuelFor : Option Rope → Option Rope → Nat
  | some l, some r => sizeN l + sizeN r
  | _, _ => 1

/-- `concat` from editor.c (see `concatF`). -/
def concat (left_subtree right_subtree : Option Rope) : Option Rope :=
  concatF (fuelFor left_subtree right_subtree) left_subtree right_subtree

/-- The incremental builder: the loop of `load_file` from editor.c with
the I/O stripped away — starting from the empty rope, each chunk becomes
a leaf that is concatenated onto the running root
(`root = concat(root, create_leaf(buffer))`). -/
def build_rope (chunks : List (List Char)) : Option Rope :=
  chunks.foldl (fun root chunk => concat root (some (create_leaf chunk))) none

/-- The character sequence printed by `print_text` from editor.c on a
non-`NULL` node: in-order traversal emitting each leaf's text. -/
def printTextR : Rope → List Char
  | .leaf _ s => s
  | .node _ l r => printTextR l ++ printTextR r

/-- The character sequence printed by `print_text` from editor.c
(nothing for a `NULL` rope). -/
def print_text : Option Rope → List Char
  | none => []
  | some t => printTextR t

/-- The in-order sequence of leaf texts of a rope (the regrouping view
of `print_text`: concatenation / rotation may regroup these leaves but
must never reorder them). -/
def leaves : Rope → List (List Char)
  | .leaf _ s => [s]
  | .node _ l r => leaves l ++ leaves r

/-- The true height of a tree (`1` at a leaf, `1 + max` at a node),
independent of the stored `height` field. -/
def realHeight : Rope → Int
  | .leaf _ _ => 1
  | .node _ l r => 1 + max (realHeight l) (realHeight r)

/-- Metadata correctness: every node's stored `weight`, `total_len`,
`height` and `newlines` equal the defining formulas (leaf: text length,
text length, `1`, newline count of the text; internal: derived from the
children's stored fields, which the recursion forces to be correct
themselves).  This is invariant 2 of the spec's data model. -/
def metaOk : Rope → Bool
  | .leaf m s =>
      m.weight = string_length s ∧ m.total_len = string_length s ∧
      m.height = 1 ∧ m.newlines = count_newlines s
  | .node m l r =>
      metaOk l && metaOk r &&
      (m.weight = l.total_len ∧
       m.total_len = l.total_len + r.total_len ∧
       m.height = 1 + max l.height r.height ∧
       m.newlines = l.newlines + r.newlines)

/-- The AVL property: at every internal node the true heights of the two
children differ by at most one (invariant 3 of the spec's data model). -/
def balOk : Rope → Bool
  | .leaf _ _ => true
  | .node _ l r =>
      balOk l && balOk r &&
      (realHeight l - realHeight r ≤ 1 ∧ realHeight r - realHeight l ≤ 1)

/-- Metadata correctness extended to possibly-`NULL` ropes. -/
def metaOkO : Option Rope → Bool
  | none => true
  | some t => metaOk t

/-!
## Heap model

Nodes addressed by naturals, with all the fields of `struct RopeNode`
including the `parent` back-reference.  The rotation primitives are
written as heap transformers following the statements of `rotate_right`
and `rotate_left` in editor.c one by one, so pointer aliasing (the same
node object read through two paths mid-rotation) is captured exactly.
-/

/-- A `struct RopeNode` as stored in memory: the four metadata ints, the
text pointer (`none` = `NULL`), and the three node pointers. -/
structure CNode where
  cweight : Int
  ctotal_len : Int
  cstr : Option (List Char)
  cheight : Int
  cnewlines : Int
  cleft : Option Nat
  cright : Option Nat
  cparent : Option Nat
deriving DecidableEq, Repr

/-- A heap: a partial map from addresses to node records. -/
def Heap : Type := Nat → Option CNode

/-- Store a record at an address. -/
def hset (h : Heap) (a : Nat) (n : CNode) : Heap :=
  fun b => if b = a then some n else h b

/-- Mutate the record at an address (no-op when the address holds
nothing; all theorems below only mutate live addresses). -/
def hupd (h : Heap) (a : Nat) (f : CNode → CNode) : Heap :=
  match h a with
  | some n => hset h a (f n)
  | none => h

/-- `node_height` from editor.c on the heap: stored height, `0` for
`NULL`. -/
def node_height_h (h : Heap) : Option Nat → Int
  | none => 0
  | some a =>
      match h a with
      | some n => n.cheight
      | none => 0

/-- Stored `total_len` of a possibly-`NULL` node (the
`node->left ? node->left->total_len : 0` reads of `update_metadata`). -/
def total_len_h (h : Heap) : Option Nat → Int
  | none => 0
  | some a =>
      match h a with
      | some n => n.ctotal_len
      | none => 0

/-- Stored `newlines` of a possibly-`NULL` node. -/
def newlines_h (h : Heap) : Option Nat → Int
  | none => 0
  | some a =>
      match h a with
      | some n => n.cnewlines
      | none => 0

/-- `string_length` from editor.c (`0` for `NULL`). -/
def string_length_h : Option (List Char) → Int
  | none => 0
  | some s => (s.length : Int)

/-- `count_newlines` from editor.c (`0` for `NULL`). -/
def count_newlines_h : Option (List Char) → Int
  | none => 0
  | some s => ((s.countP (fun c => c = '\n') : Nat) : Int)

/-- `is_leaf` from editor.c on a record: both children `NULL`. -/
def is_leaf_h (n : CNode) : Bool :=
  n.cleft = none && n.cright = none

/-- `update_metadata` from editor.c as a heap transformer: recompute the
four metadata fields of the node at `a` from its own text (leaf case) or
from the stored fields of its direct children (internal case); no-op on
`NULL`. -/
def update_metadata_h (h : Heap) : Option Nat → Heap
  | none => h
  | some a =>
      match h a with
      | none => h
      | some n =>
          if is_leaf_h n then
            let len := string_length_h n.cstr
            hset h a { n with ctotal_len := len, cweight := len,
                              cheight := 1,
                              cnewlines := count_newlines_h n.cstr }
          else
            let left_len := total_len_h h n.cleft
            let right_len := total_len_h h n.cright
            hset h a { n with
              ctotal_len := left_len + right_len,
              cweight := left_len,
              cheight := 1 + max (node_height_h h n.cleft)
                                 (node_height_h h n.cright),
              cnewlines := newlines_h h n.cleft + newlines_h h n.cright }

/-- `rotate_right` from editor.c as a heap transformer, statement by
statement; returns the new heap and the returned pointer. -/
def rotate_right_h (h : Heap) (node : Option Nat) : Heap × Option Nat :=
  match node with
  | none => (h, none)
  | some y =>
      match h y with
      | none => (h, none)
      | some yn =>
          match yn.cleft with
          | none => (h, none)
          | some x =>
              let B : Option Nat := match h x with
                | some xn => xn.cright
                | none => none
              let parent := yn.cparent
              let h1 := hupd h y (fun n => { n with cparent := none })
              let h2 := hupd h1 x (fun n => { n with cparent := parent })
              let h3 := match parent with
                | none => h2
                | some p =>
                    match h2 p with
                    | none => h2
                    | some pn =>
                        if pn.cleft = some y then
                          hset h2 p { pn with cleft := some x }
                        else
                          hset h2 p { pn with cright := some x }
              let h4 := hupd h3 x (fun n => { n with cright := some y })
              let h5 := hupd h4 y (fun n => { n with cparent := some x })
              let h6 := match B with
                | none => h5
                | some b =>
                    hupd (hupd h5 y (fun n => { n with cleft := some b }))
                         b (fun n => { n with cparent := some y })
              let h7 := update_metadata_h h6 (some y)
              let h8 := update_metadata_h h7 (some x)
              (h8, some x)

/-- `rotate_left` from editor.c as a heap transformer, statement by
statement; returns the new heap and the returned pointer. -/
def rotate_left_h (h : Heap) (node : Option Nat) : Heap × Option Nat :=
  match node with
  | none => (h, none)
  | some x =>
      match h x with
      | none => (h, none)
      | some xn =>
          match xn.cright with
          | none => (h, none)
          | some y =>
              let B : Option Nat := match h y with
                | some yn => yn.cleft
                | none => none
              let parent := xn.cparent
              let h1 := hupd h x (fun n => { n with cparent := none })
              let h2 := hupd h1 y (fun n => { n with cparent := parent })
              let h3 := match parent with
                | none => h2
                | some p =>
                    match h2 p with
                    | none => h2
                    | some pn =>
                        if pn.cleft = some x then
                          hset h2 p { pn with cleft := some y }
                        else
                          hset h2 p { pn with cright := some y }
              let h4 := hupd h3 y (fun n => { n with cleft := some x })
              let h5 := hupd h4 x (fun n => { n with cparent := some y })
              let h6 := match B with
                | none => h5
                | some b =>
                    hupd (hupd h5 x (fun n => { n with cright := some b }))
                         b (fun n => { n with cparent := some x })
              let h7 := update_metadata_h h6 (some x)
              let h8 := update_metadata_h h7 (some y)
              (h8, some y)

/-- In-order leaf texts of a possibly-`NULL` rope. -/
def leavesO : Option Rope → List (List Char)
  | none => []
  | some t => leaves t

/-- The AVL property extended to possibly-`NULL` ropes. -/
def balOkO : Option Rope → Bool
  | none => true
  | some t => balOk t

/-- The number of nested `concat` activations the C code performs on the
given pair of non-`NULL` trees (1 for a call that does not recurse),
mirroring the three skew cases of `concatF` with the same fuel
convention. -/
def depthF : Nat → Rope → Rope → Nat
  | 0, _, _ => 1
  | fuel + 1, l, r =>
      let skew := node_height (some r) - node_height (some l)
      if -1 ≤ skew ∧ skew ≤ 1 then 1
      else if 2 ≤ skew then
        match r with
        | .leaf _ _ => 1
        | .node _ rl _ => 1 + depthF fuel l rl
      else if skew ≤ -2 then
        match l with
        | .leaf _ _ => 1
        | .node _ _ lr => 1 + depthF fuel lr r
      else 1

/-- Recursion depth of `concat l r` (see `depthF`). -/
def concat_depth (l r : Rope) : Nat := depthF (sizeN l + sizeN r) l r

/-- A metadata-correct but unbalanced left spine of height 4 over the
leaves "a","b","c","d" (concrete test input). -/
def spineR4 : Rope :=
  Rope.node ⟨3, 4, 4, 0⟩
    (Rope.node ⟨2, 3, 3, 0⟩
      (Rope.node ⟨1, 2, 2, 0⟩
        (Rope.leaf ⟨1, 1, 1, 0⟩ ['a'])
        (Rope.leaf ⟨1, 1, 1, 0⟩ ['b']))
      (Rope.leaf ⟨1, 1, 1, 0⟩ ['c']))
    (Rope.leaf ⟨1, 1, 1, 0⟩ ['d'])

/-- A metadata-correct left spine of height 5 (concrete test input). -/
def spineR5 : Rope :=
  Rope.node ⟨4, 5, 5, 0⟩ spineR4 (Rope.leaf ⟨1, 1, 1, 0⟩ ['f'])

/-- Left input of the C6 counterexample: height 4. -/
def c6l : Rope := spineR4

/-- Left child of the right input of the C6 counterexample: height 1. -/
def c6rl : Rope := Rope.leaf ⟨1, 1, 1, 0⟩ ['e']

/-- Right child of the right input of the C6 counterexample: height 5. -/
def c6rr : Rope := spineR5

/-- Right input of the C6 counterexample: metadata-correct, height 6,
with a height-1 left child. -/
def c6r : Rope := Rope.node ⟨1, 6, 6, 0⟩ c6rl c6rr

/-- Left child of the C3 counterexample node: a single leaf. -/
def cex3_left : Rope := Rope.leaf ⟨1, 1, 1, 0⟩ ['e']

/-- Right child of the C3 counterexample node: the height-4 spine, so
the node entering `rebalance` has skew `4 - 1 = 3`. -/
def cex3_right : Rope := spineR4

/-- Concrete heap for the `B == NULL` rotation corner: the valid
two-leaf rope `y(0) = node(x(1) = leaf "a", z(2) = leaf "b")`. -/
def hFail : Heap := fun a =>
  match a with
  | 0 => some ⟨1, 2, none, 2, 0, some 1, some 2, none⟩
  | 1 => some ⟨1, 1, some ['a'], 1, 0, none, none, some 0⟩
  | 2 => some ⟨1, 1, some ['b'], 1, 0, none, none, some 0⟩
  | _ => none

/-- Concrete heap for a normal `rotate_right`, with a grandparent:
`g(5) = node(y(0), d(6))`, `y(0) = node(x(1), c(4))`,
`x(1) = node(a(2), b(3))`, all metadata correct. -/
def hNorm : Heap := fun a =>
  match a with
  | 5 => some ⟨3, 4, none, 4, 0, some 0, some 6, none⟩
  | 0 => some ⟨2, 3, none, 3, 0, some 1, some 4, some 5⟩
  | 1 => some ⟨1, 2, none, 2, 0, some 2, some 3, some 0⟩
  | 2 => some ⟨1, 1, some ['a'], 1, 0, none, none, some 1⟩
  | 3 => some ⟨1, 1, some ['b'], 1, 0, none, none, some 1⟩
  | 4 => some ⟨1, 1, some ['c'], 1, 0, none, none, some 0⟩
  | 6 => some ⟨1, 1, some ['d'], 1, 0, none, none, some 5⟩
  | _ => none

/-- Concrete heap for a normal `rotate_left`, with the node in the
grandparent's right slot: `g(5) = node(d(6), x(0))`,
`x(0) = node(a(1), y(2))`, `y(2) = node(b(3), c(4))`. -/
def hNormL : Heap := fun a =>
  match a with
  | 5 => some ⟨1, 4, none, 4, 0, some 6, some 0, none⟩
  | 0 => some ⟨1, 3, none, 3, 0, some 1, some 2, some 5⟩
  | 2 => some ⟨1, 2, none, 2, 0, some 3, some 4, some 0⟩
  | 1 => some ⟨1, 1, some ['a'], 1, 0, none, none, some 0⟩
  | 3 => some ⟨1, 1, some ['b'], 1, 0, none, none, some 2⟩
  | 4 => some ⟨1, 1, some ['c'], 1, 0, none, none, some 2⟩
  | 6 => some ⟨1, 1, some ['d'], 1, 0, none, none, some 5⟩
  | _ => none

/-!
## Basic lemmas about the pure model
-/

theorem height_node (m : Meta) (l r : Rope) :
    (Rope.node m l r).height = m.height := rfl

theorem height_leaf (m : Meta) (s : List Char) :
    (Rope.leaf m s).height = m.height := rfl

theorem metaOk_leaf_iff (m : Meta) (s : List Char) :
    metaOk (.leaf m s) = true ↔
      m.weight = string_length s ∧ m.total_len = string_length s ∧
      m.height = 1 ∧ m.newlines = count_newlines s := by
  simp [metaOk]

theorem metaOk_node_iff (m : Meta) (l r : Rope) :
    metaOk (.node m l r) = true ↔
      metaOk l = true ∧ metaOk r = true ∧
      m.weight = l.total_len ∧
      m.total_len = l.total_len + r.total_len ∧
      m.height = 1 + max l.height r.height ∧
      m.newlines = l.newlines + r.newlines := by
  simp [metaOk]
  tauto

/-- Every true height is at least 1. -/
theorem realHeight_pos (t : Rope) : 1 ≤ realHeight t := by
  induction t with
  | leaf m s => simp [realHeight]
  | node m l r ihl ihr =>
      simp only [realHeight]
      omega

/-- On a metadata-correct tree the stored height is the true height. -/
theorem stored_height_eq (t : Rope) (h : metaOk t = true) :
    t.height = realHeight t := by
  induction t with
  | leaf m s =>
      rw [metaOk_leaf_iff] at h
      simp [realHeight, height_leaf, h.2.2.1]
  | node m l r ihl ihr =>
      rw [metaOk_node_iff] at h
      simp [realHeight, height_node, h.2.2.2.2.1,
            ihl h.1, ihr h.2.1]

/-- A metadata-correct tree of stored height 1 is a leaf (used to rule
out the degenerate rotation corners). -/
theorem internal_of_two_le_height (t : Rope) (h : metaOk t = true)
    (h2 : 2 ≤ t.height) : ∃ m l r, t = .node m l r := by
  cases t with
  | leaf m s =>
      rw [metaOk_leaf_iff] at h
      rw [height_leaf, h.2.2.1] at h2
      omega
  | node m l r => exact ⟨m, l, r, rfl⟩

theorem update_metadata_node (m : Meta) (l r : Rope) :
    update_metadata (.node m l r) =
      .node ⟨l.total_len, l.total_len + r.total_len,
             1 + max l.height r.height,
             l.newlines + r.newlines⟩ l r := rfl

theorem update_metadata_leaf (m : Meta) (s : List Char) :
    update_metadata (.leaf m s) =
      .leaf ⟨string_length s, string_length s, 1, count_newlines s⟩ s := rfl

/-- `update_metadata` makes a node metadata-correct whenever its
children are (recompute idempotence, the inductive step). -/
theorem metaOk_update_metadata_node (m : Meta) (l r : Rope)
    (hl : metaOk l = true) (hr : metaOk r = true) :
    metaOk (update_metadata (.node m l r)) = true := by
  rw [update_metadata_node, metaOk_node_iff]
  exact ⟨hl, hr, rfl, rfl, by simp [node_height], rfl⟩

theorem metaOk_update_metadata_leaf (m : Meta) (s : List Char) :
    metaOk (update_metadata (.leaf m s)) = true := by
  rw [update_metadata_leaf, metaOk_leaf_iff]
  exact ⟨rfl, rfl, rfl, rfl⟩

/-- On an already metadata-correct node, `update_metadata` is the
identity (recompute idempotence). -/
theorem update_metadata_of_metaOk (t : Rope) (h : metaOk t = true) :
    update_metadata t = t := by
  cases t with
  | leaf m s =>
      rw [metaOk_leaf_iff] at h
      obtain ⟨h1, h2, h3, h4⟩ := h
      rw [update_metadata_leaf]
      cases m
      simp_all
  | node m l r =>
      rw [metaOk_node_iff] at h
      obtain ⟨-, -, h1, h2, h3, h4⟩ := h
      rw [update_metadata_node]
      cases m
      simp_all [node_height]

theorem leaves_update_metadata (t : Rope) :
    leaves (update_metadata t) = leaves t := by
  cases t <;> rfl

theorem printTextR_update_metadata (t : Rope) :
    printTextR (update_metadata t) = printTextR t := by
  cases t <;> rfl

theorem realHeight_update_metadata (t : Rope) :
    realHeight (update_metadata t) = realHeight t := by
  cases t <;> rfl

theorem balOk_update_metadata (t : Rope) :
    balOk (update_metadata t) = balOk t := by
  cases t <;> simp [update_metadata, balOk, realHeight]

/-- In-order text is the concatenation of the in-order leaf texts. -/
theorem printTextR_eq_flatten_leaves (t : Rope) :
    printTextR t = (leaves t).flatten := by
  induction t with
  | leaf m s => simp [printTextR, leaves]
  | node m l r ihl ihr => simp [printTextR, leaves, ihl, ihr]

theorem metaOk_create_leaf (s : List Char) :
    metaOk (create_leaf s) = true :=
  metaOk_update_metadata_leaf _ s

theorem create_leaf_eq (s : List Char) :
    create_leaf s =
      .leaf ⟨string_length s, string_length s, 1, count_newlines s⟩ s := rfl

theorem leaves_create_leaf (s : List Char) : leaves (create_leaf s) = [s] := rfl

theorem realHeight_create_leaf (s : List Char) :
    realHeight (create_leaf s) = 1 := rfl

theorem balOk_create_leaf (s : List Char) : balOk (create_leaf s) = true := rfl

theorem node_height_some (t : Rope) : node_height (some t) = t.height := rfl

/-- `rotate_right` on the shape it is designed for (`y` internal with
internal left child `x`): `x` becomes the local root, `y` its right
child, `B = x.right` moves to `y.left`, and metadata is recomputed for
`y` first, then `x`. -/
theorem rotate_right_eq (my mx : Meta) (a b c : Rope) :
    rotate_right (some (.node my (.node mx a b) c)) =
      some (update_metadata (.node mx a (update_metadata (.node my b c)))) := rfl

/-- `rotate_left` on its designed shape (mirror of `rotate_right_eq`). -/
theorem rotate_left_eq (mx my : Meta) (a b c : Rope) :
    rotate_left (some (.node mx a (.node my b c))) =
      some (update_metadata (.node my (update_metadata (.node mx a b)) c)) := rfl

theorem metaOk_rot_result (mo mi : Meta) (a b c : Rope)
    (ha : metaOk a = true) (hb : metaOk b = true) (hc : metaOk c = true) :
    metaOk (update_metadata (.node mo (update_metadata (.node mi a b)) c)) = true :=
  metaOk_update_metadata_node _ _ _ (metaOk_update_metadata_node _ _ _ ha hb) hc

theorem metaOk_rot_result' (mo mi : Meta) (a b c : Rope)
    (ha : metaOk a = true) (hb : metaOk b = true) (hc : metaOk c = true) :
    metaOk (update_metadata (.node mo a (update_metadata (.node mi b c)))) = true :=
  metaOk_update_metadata_node _ _ _ ha (metaOk_update_metadata_node _ _ _ hb hc)

/-- `rebalance` on a node with metadata-correct children always
completes, returns a metadata-correct tree, and only regroups the
in-order leaf sequence. -/
theorem rebalance_spec (m : Meta) (l r : Rope)
    (hl : metaOk l = true) (hr : metaOk r = true) :
    ∃ t, rebalance (some (.node m l r)) = some t ∧ metaOk t = true ∧
      leaves t = leaves l ++ leaves r := by
  have hlh := stored_height_eq l hl
  have hrh := stored_height_eq r hr
  have hlp := realHeight_pos l
  have hrp := realHeight_pos r
  simp only [rebalance, update_metadata_node, node_height_some]
  by_cases h2 : r.height - l.height = 2
  · rw [if_pos h2]
    obtain ⟨mr, rl, rr, rfl⟩ : ∃ mr rl rr, r = .node mr rl rr :=
      internal_of_two_le_height r hr (by omega)
    obtain ⟨hrl, hrr, -, -, hrht, -⟩ := (metaOk_node_iff _ _ _).1 hr
    have hrlh := stored_height_eq rl hrl
    have hrrh := stored_height_eq rr hrr
    have hrlp := realHeight_pos rl
    have hrrp := realHeight_pos rr
    simp only [get_skew, node_height_some]
    by_cases hs1 : rr.height - rl.height = 1 ∨ rr.height - rl.height = 0
    · rw [if_pos hs1, rotate_left_eq]
      set res := update_metadata
        (.node mr (update_metadata (.node ⟨l.total_len,
          l.total_len + (Rope.node mr rl rr).total_len,
          1 + max l.height (Rope.node mr rl rr).height,
          l.newlines + (Rope.node mr rl rr).newlines⟩ l rl)) rr) with hres
      have hmres : metaOk res = true :=
        metaOk_rot_result _ _ _ _ _ hl hrl hrr
      refine ⟨res, ?_, hmres, ?_⟩
      · simp only [update_metadata_of_metaOk res hmres]
      · simp [hres, leaves_update_metadata, leaves, List.append_assoc]
    · rw [if_neg hs1]
      by_cases hsm1 : rr.height - rl.height = -1
      · rw [if_pos hsm1]
        obtain ⟨ml2, p, q, rfl⟩ : ∃ ml2 p q, rl = .node ml2 p q :=
          internal_of_two_le_height rl hrl (by omega)
        obtain ⟨hp, hq, -, -, -, -⟩ := (metaOk_node_iff _ _ _).1 hrl
        rw [rotate_right_eq]
        dsimp only
        rw [update_metadata_of_metaOk _
          (metaOk_rot_result' _ _ _ _ _ hp hq hrr)]
        rw [update_metadata_node ml2 p (update_metadata (.node mr q rr))]
        rw [rotate_left_eq]
        dsimp only
        set res := update_metadata (.node _ (update_metadata (.node _ l p)) _)
          with hres
        have hmres : metaOk res = true :=
          metaOk_rot_result _ _ _ _ _ hl hp
            (metaOk_update_metadata_node _ _ _ hq hrr)
        refine ⟨res, ?_, hmres, ?_⟩
        · rw [update_metadata_of_metaOk res hmres]
        · simp [hres, leaves_update_metadata, leaves, List.append_assoc]
      · rw [if_neg hsm1]
        refine ⟨_, rfl, ?_, rfl⟩
        exact metaOk_update_metadata_node m l _ hl hr
  · rw [if_neg h2]
    by_cases hm2 : r.height - l.height = -2
    · rw [if_pos hm2]
      obtain ⟨ml, ll, lr, rfl⟩ : ∃ ml ll lr, l = .node ml ll lr :=
        internal_of_two_le_height l hl (by omega)
      obtain ⟨hll, hlr, -, -, hlht, -⟩ := (metaOk_node_iff _ _ _).1 hl
      have hllh := stored_height_eq ll hll
      have hlrh := stored_height_eq lr hlr
      have hllp := realHeight_pos ll
      have hlrp := realHeight_pos lr
      simp only [get_skew, node_height_some]
      by_cases hs1 : lr.height - ll.height = -1 ∨ lr.height - ll.height = 0
      · rw [if_pos hs1, rotate_right_eq]
        set res := update_metadata
          (.node ml ll (update_metadata (.node _ lr r))) with hres
        have hmres : metaOk res = true :=
          metaOk_rot_result' _ _ _ _ _ hll hlr hr
        refine ⟨res, ?_, hmres, ?_⟩
        · simp only [update_metadata_of_metaOk res hmres]
        · simp [hres, leaves_update_metadata, leaves, List.append_assoc]
      · rw [if_neg hs1]
        by_cases hsp1 : lr.height - ll.height = 1
        · rw [if_pos hsp1]
          obtain ⟨ml2, p, q, rfl⟩ : ∃ ml2 p q, lr = .node ml2 p q :=
            internal_of_two_le_height lr hlr (by omega)
          obtain ⟨hp, hq, -, -, -, -⟩ := (metaOk_node_iff _ _ _).1 hlr
          rw [rotate_left_eq]
          dsimp only
          rw [update_metadata_of_metaOk _
            (metaOk_rot_result _ _ _ _ _ hll hp hq)]
          rw [update_metadata_node ml2 (update_metadata (.node ml ll p)) q]
          rw [rotate_right_eq]
          dsimp only
          set res := update_metadata
            (.node _ (update_metadata (.node ml ll p)) (update_metadata _))
            with hres
          have hmres : metaOk res = true :=
            metaOk_rot_result' _ _ _ _ _
              (metaOk_update_metadata_node _ _ _ hll hp) hq hr
          refine ⟨res, ?_, hmres, ?_⟩
          · rw [update_metadata_of_metaOk res hmres]
          · simp [hres, leaves_update_metadata, leaves, List.append_assoc]
        · rw [if_neg hsp1]
          refine ⟨_, rfl, ?_, rfl⟩
          exact metaOk_update_metadata_node m _ r hl hr
    · rw [if_neg hm2]
      refine ⟨_, rfl, ?_, rfl⟩
      exact metaOk_update_metadata_node m l r hl hr

theorem update_metadata_idem (t : Rope) :
    update_metadata (update_metadata t) = update_metadata t := by
  cases t <;> rfl

theorem realHeight_node (m : Meta) (l r : Rope) :
    realHeight (.node m l r) = 1 + max (realHeight l) (realHeight r) := rfl

theorem balOk_node_iff (m : Meta) (l r : Rope) :
    balOk (.node m l r) = true ↔
      balOk l = true ∧ balOk r = true ∧
      realHeight l - realHeight r ≤ 1 ∧ realHeight r - realHeight l ≤ 1 := by
  simp [balOk]
  tauto

/-- The `skew = 2`, `right_skew ∈ {1,0}` branch of `rebalance`: a single
left rotation of the root. -/
theorem rebalance_single_left_eq (m : Meta) (l : Rope) (mr : Meta) (rl rr : Rope)
    (h2 : (Rope.node mr rl rr).height - l.height = 2)
    (hs : rr.height - rl.height = 1 ∨ rr.height - rl.height = 0) :
    rebalance (some (.node m l (.node mr rl rr))) =
      some (update_metadata (.node mr (update_metadata (.node m l rl)) rr)) := by
  simp only [rebalance, update_metadata_node, node_height_some]
  rw [if_pos (by simpa [height_node] using h2)]
  simp only [get_skew, node_height_some]
  rw [if_pos hs, rotate_left_eq]
  rfl

/-- The `skew = 2`, `right_skew = -1` branch of `rebalance`: a right
rotation of the right child followed by a left rotation of the root. -/
theorem rebalance_double_left_eq (m : Meta) (l : Rope) (mr ml2 : Meta)
    (p q rr : Rope)
    (h2 : (Rope.node mr (.node ml2 p q) rr).height - l.height = 2)
    (hs : rr.height - (Rope.node ml2 p q).height = -1) :
    rebalance (some (.node m l (.node mr (.node ml2 p q) rr))) =
      some (update_metadata (.node ml2 (update_metadata (.node m l p))
        (update_metadata (.node mr q rr)))) := by
  simp only [rebalance, update_metadata_node, node_height_some]
  rw [if_pos (by simpa [height_node] using h2)]
  simp only [get_skew, node_height_some]
  rw [if_neg (by omega), if_pos hs, rotate_right_eq]
  dsimp only
  rw [update_metadata_idem, update_metadata_node ml2 p (update_metadata (.node mr q rr))]
  rw [rotate_left_eq]
  rfl

/-- The `skew = -2`, `left_skew ∈ {-1,0}` branch of `rebalance`: a
single right rotation of the root. -/
theorem rebalance_single_right_eq (m ml : Meta) (ll lr r : Rope)
    (h2 : r.height - (Rope.node ml ll lr).height = -2)
    (hs : lr.height - ll.height = -1 ∨ lr.height - ll.height = 0) :
    rebalance (some (.node m (.node ml ll lr) r)) =
      some (update_metadata (.node ml ll (update_metadata (.node m lr r)))) := by
  simp only [rebalance, update_metadata_node, node_height_some]
  rw [if_neg (by omega), if_pos (by simpa [height_node] using h2)]
  simp only [get_skew, node_height_some]
  rw [if_pos hs, rotate_right_eq]
  rfl

/-- The `skew = -2`, `left_skew = 1` branch of `rebalance`: a left
rotation of the left child followed by a right rotation of the root. -/
theorem rebalance_double_right_eq (m ml ml2 : Meta) (ll p q r : Rope)
    (h2 : r.height - (Rope.node ml ll (.node ml2 p q)).height = -2)
    (hs : (Rope.node ml2 p q).height - ll.height = 1) :
    rebalance (some (.node m (.node ml ll (.node ml2 p q)) r)) =
      some (update_metadata (.node ml2 (update_metadata (.node ml ll p))
        (update_metadata (.node m q r)))) := by
  simp only [rebalance, update_metadata_node, node_height_some]
  rw [if_neg (by omega), if_pos (by simpa [height_node] using h2)]
  simp only [get_skew, node_height_some]
  rw [if_neg (by omega), if_pos hs, rotate_left_eq]
  dsimp only
  rw [update_metadata_idem,
      update_metadata_node ml2 (update_metadata (.node ml ll p)) q]
  rw [rotate_right_eq]
  rfl

/-- The fall-through of `rebalance`: any skew other than `±2` — in
particular every skew of magnitude 3 or more — leaves the node as it is,
with only its metadata recomputed (`return node`). -/
theorem rebalance_fallthrough_eq (m : Meta) (l r : Rope)
    (h : r.height - l.height ≠ 2 ∧ r.height - l.height ≠ -2) :
    rebalance (some (.node m l r)) = some (update_metadata (.node m l r)) := by
  simp only [rebalance, update_metadata_node, node_height_some]
  rw [if_neg h.1, if_neg h.2]


/-- `rebalance` on a node whose children are metadata-correct AVL trees
with heights differing by at most two restores the AVL property; the
result keeps the children's leaf sequence, its height lies between the
taller child's height and one more than that, and when no rotation was
needed (skew within one) the height is exactly one more than the taller
child's. -/
theorem rebalance_bal (m : Meta) (l r : Rope)
    (hl : metaOk l = true) (hr : metaOk r = true)
    (hbl : balOk l = true) (hbr : balOk r = true)
    (hs2 : realHeight r - realHeight l ≤ 2)
    (hs2' : realHeight l - realHeight r ≤ 2) :
    ∃ t, rebalance (some (.node m l r)) = some t ∧ metaOk t = true ∧
      balOk t = true ∧ leaves t = leaves l ++ leaves r ∧
      max (realHeight l) (realHeight r) ≤ realHeight t ∧
      realHeight t ≤ max (realHeight l) (realHeight r) + 1 ∧
      (realHeight r - realHeight l ≤ 1 → realHeight l - realHeight r ≤ 1 →
        realHeight t = max (realHeight l) (realHeight r) + 1) := by
  have hlh := stored_height_eq l hl
  have hrh := stored_height_eq r hr
  have hlp := realHeight_pos l
  have hrp := realHeight_pos r
  by_cases hA : realHeight r - realHeight l ≤ 1 ∧ realHeight l - realHeight r ≤ 1
  · rw [rebalance_fallthrough_eq m l r (by omega)]
    refine ⟨_, rfl, metaOk_update_metadata_node m l r hl hr, ?_, ?_, ?_, ?_, ?_⟩
    · rw [balOk_update_metadata, balOk_node_iff]
      exact ⟨hbl, hbr, by omega, by omega⟩
    · rw [leaves_update_metadata]; rfl
    · simp only [realHeight_update_metadata, realHeight_node]; omega
    · simp only [realHeight_update_metadata, realHeight_node]; omega
    · intro h1 h2
      simp only [realHeight_update_metadata, realHeight_node]; omega
  · by_cases hB : realHeight r - realHeight l = 2
    · obtain ⟨mr, rl, rr, rfl⟩ : ∃ mr rl rr, r = .node mr rl rr :=
        internal_of_two_le_height r hr (by omega)
      obtain ⟨hrl, hrr, -, -, -, -⟩ := (metaOk_node_iff _ _ _).1 hr
      obtain ⟨hbrl, hbrr, hb1, hb2⟩ := (balOk_node_iff _ _ _).1 hbr
      have hrlh := stored_height_eq rl hrl
      have hrrh := stored_height_eq rr hrr
      have hrlp := realHeight_pos rl
      have hrrp := realHeight_pos rr
      have hrH : realHeight (Rope.node mr rl rr) =
          1 + max (realHeight rl) (realHeight rr) := rfl
      by_cases hC : rr.height - rl.height = 1 ∨ rr.height - rl.height = 0
      · rw [rebalance_single_left_eq m l mr rl rr (by omega) hC]
        refine ⟨_, rfl,
          metaOk_rot_result _ _ _ _ _ hl hrl hrr, ?_, ?_, ?_, ?_, ?_⟩
        · rw [balOk_update_metadata, balOk_node_iff]
          refine ⟨?_, hbrr, ?_, ?_⟩
          · rw [balOk_update_metadata, balOk_node_iff]
            exact ⟨hbl, hbrl, by omega, by omega⟩
          · simp only [realHeight_update_metadata, realHeight_node]; omega
          · simp only [realHeight_update_metadata, realHeight_node]; omega
        · simp [leaves_update_metadata, leaves, List.append_assoc]
        · simp only [realHeight_update_metadata, realHeight_node, hrH]; omega
        · simp only [realHeight_update_metadata, realHeight_node, hrH]; omega
        · intro hc1 hc2; rw [hrH] at hc1 hc2; omega
      · have hC' : rr.height - rl.height = -1 := by omega
        obtain ⟨ml2, p, q, rfl⟩ : ∃ ml2 p q, rl = .node ml2 p q :=
          internal_of_two_le_height rl hrl (by omega)
        obtain ⟨hpm, hqm, -, -, -, -⟩ := (metaOk_node_iff _ _ _).1 hrl
        obtain ⟨hbp, hbq, hpq1, hpq2⟩ := (balOk_node_iff _ _ _).1 hbrl
        have hph := stored_height_eq p hpm
        have hqh := stored_height_eq q hqm
        have hpp := realHeight_pos p
        have hqp := realHeight_pos q
        have hrlH : realHeight (Rope.node ml2 p q) =
            1 + max (realHeight p) (realHeight q) := rfl
        rw [rebalance_double_left_eq m l mr ml2 p q rr (by omega) (by omega)]
        refine ⟨_, rfl,
          metaOk_update_metadata_node _ _ _
            (metaOk_update_metadata_node _ _ _ hl hpm)
            (metaOk_update_metadata_node _ _ _ hqm hrr), ?_, ?_, ?_, ?_, ?_⟩
        · rw [balOk_update_metadata, balOk_node_iff]
          refine ⟨?_, ?_, ?_, ?_⟩
          · rw [balOk_update_metadata, balOk_node_iff]
            exact ⟨hbl, hbp, by omega, by omega⟩
          · rw [balOk_update_metadata, balOk_node_iff]
            exact ⟨hbq, hbrr, by omega, by omega⟩
          · simp only [realHeight_update_metadata, realHeight_node]; omega
          · simp only [realHeight_update_metadata, realHeight_node]; omega
        · simp [leaves_update_metadata, leaves, List.append_assoc]
        · simp only [realHeight_update_metadata, realHeight_node, hrH, hrlH]
          omega
        · simp only [realHeight_update_metadata, realHeight_node, hrH, hrlH]
          omega
        · intro hc1 hc2; rw [hrH] at hc1 hc2; omega
    · have hB' : realHeight l - realHeight r = 2 := by omega
      obtain ⟨ml, ll, lr, rfl⟩ : ∃ ml ll lr, l = .node ml ll lr :=
        internal_of_two_le_height l hl (by omega)
      obtain ⟨hll, hlr, -, -, -, -⟩ := (metaOk_node_iff _ _ _).1 hl
      obtain ⟨hbll, hblr, hb1, hb2⟩ := (balOk_node_iff _ _ _).1 hbl
      have hllh := stored_height_eq ll hll
      have hlrh := stored_height_eq lr hlr
      have hllp := realHeight_pos ll
      have hlrp := realHeight_pos lr
      have hlH : realHeight (Rope.node ml ll lr) =
          1 + max (realHeight ll) (realHeight lr) := rfl
      by_cases hC : lr.height - ll.height = -1 ∨ lr.height - ll.height = 0
      · rw [rebalance_single_right_eq m ml ll lr r (by omega) hC]
        refine ⟨_, rfl,
          metaOk_rot_result' _ _ _ _ _ hll hlr hr, ?_, ?_, ?_, ?_, ?_⟩
        · rw [balOk_update_metadata, balOk_node_iff]
          refine ⟨hbll, ?_, ?_, ?_⟩
          · rw [balOk_update_metadata, balOk_node_iff]
            exact ⟨hblr, hbr, by omega, by omega⟩
          · simp only [realHeight_update_metadata, realHeight_node]; omega
          · simp only [realHeight_update_metadata, realHeight_node]; omega
        · simp [leaves_update_metadata, leaves, List.append_assoc]
        · simp only [realHeight_update_metadata, realHeight_node, hlH]; omega
        · simp only [realHeight_update_metadata, realHeight_node, hlH]; omega
        · intro hc1 hc2; rw [hlH] at hc1 hc2; omega
      · have hC' : lr.height - ll.height = 1 := by omega
        obtain ⟨ml2, p, q, rfl⟩ : ∃ ml2 p q, lr = .node ml2 p q :=
          internal_of_two_le_height lr hlr (by omega)
        obtain ⟨hpm, hqm, -, -, -, -⟩ := (metaOk_node_iff _ _ _).1 hlr
        obtain ⟨hbp, hbq, hpq1, hpq2⟩ := (balOk_node_iff _ _ _).1 hblr
        have hph := stored_height_eq p hpm
        have hqh := stored_height_eq q hqm
        have hpp := realHeight_pos p
        have hqp := realHeight_pos q
        have hlrH : realHeight (Rope.node ml2 p q) =
            1 + max (realHeight p) (realHeight q) := rfl
        rw [rebalance_double_right_eq m ml ml2 ll p q r (by omega) (by omega)]
        refine ⟨_, rfl,
          metaOk_update_metadata_node _ _ _
            (metaOk_update_metadata_node _ _ _ hll hpm)
            (metaOk_update_metadata_node _ _ _ hqm hr), ?_, ?_, ?_, ?_, ?_⟩
        · rw [balOk_update_metadata, balOk_node_iff]
          refine ⟨?_, ?_, ?_, ?_⟩
          · rw [balOk_update_metadata, balOk_node_iff]
            exact ⟨hbll, hbp, by omega, by omega⟩
          · rw [balOk_update_metadata, balOk_node_iff]
            exact ⟨hbq, hbr, by omega, by omega⟩
          · simp only [realHeight_update_metadata, realHeight_node]; omega
          · simp only [realHeight_update_metadata, realHeight_node]; omega
        · simp [leaves_update_metadata, leaves, List.append_assoc]
        · simp only [realHeight_update_metadata, realHeight_node, hlH, hlrH]
          omega
        · simp only [realHeight_update_metadata, realHeight_node, hlH, hlrH]
          omega
        · intro hc1 hc2; rw [hlH] at hc1 hc2; omega

theorem sizeN_pos (t : Rope) : 1 ≤ sizeN t := by
  cases t with
  | leaf m s => simp [sizeN]
  | node m l r => simp only [sizeN]; omega

/-- `concat` on two non-`NULL`, metadata-correct trees always completes
(with the fuel bounded by the node count), produces a metadata-correct
tree, and concatenates the in-order leaf sequences in order. -/
theorem concatF_spec (fuel : Nat) :
    ∀ l r : Rope, sizeN l + sizeN r ≤ fuel →
      metaOk l = true → metaOk r = true →
      ∃ t, concatF fuel (some l) (some r) = some t ∧ metaOk t = true ∧
        leaves t = leaves l ++ leaves r := by
  induction fuel with
  | zero =>
      intro l r hsz _ _
      have := sizeN_pos l
      have := sizeN_pos r
      omega
  | succ fuel ih =>
      intro l r hsz hl hr
      have hlh := stored_height_eq l hl
      have hrh := stored_height_eq r hr
      have hlp := realHeight_pos l
      have hrp := realHeight_pos r
      simp only [concatF, node_height_some]
      by_cases hA : -1 ≤ r.height - l.height ∧ r.height - l.height ≤ 1
      · rw [if_pos hA]
        refine ⟨_, rfl, metaOk_update_metadata_node _ _ _ hl hr, ?_⟩
        rw [leaves_update_metadata]; rfl
      · rw [if_neg hA]
        by_cases hB : 2 ≤ r.height - l.height
        · rw [if_pos hB]
          obtain ⟨mr, rl, rr, rfl⟩ : ∃ mr rl rr, r = .node mr rl rr :=
            internal_of_two_le_height r hr (by omega)
          obtain ⟨hrl, hrr, -, -, -, -⟩ := (metaOk_node_iff _ _ _).1 hr
          have hsz' : sizeN l + sizeN rl ≤ fuel := by
            have := sizeN_pos rr
            simp only [sizeN] at hsz
            omega
          obtain ⟨c, hc, hcm, hcl⟩ := ih l rl hsz' hl hrl
          dsimp only
          rw [hc]
          dsimp only
          rw [update_metadata_node]
          obtain ⟨t, ht, htm, htl⟩ := rebalance_spec _ c rr hcm hrr
          refine ⟨t, ht, htm, ?_⟩
          rw [htl, hcl]
          simp [leaves, List.append_assoc]
        · rw [if_neg hB, if_pos (by omega)]
          obtain ⟨ml, ll, lr, rfl⟩ : ∃ ml ll lr, l = .node ml ll lr :=
            internal_of_two_le_height l hl (by omega)
          obtain ⟨hll, hlr, -, -, -, -⟩ := (metaOk_node_iff _ _ _).1 hl
          have hsz' : sizeN lr + sizeN r ≤ fuel := by
            have := sizeN_pos ll
            simp only [sizeN] at hsz
            omega
          obtain ⟨c, hc, hcm, hcl⟩ := ih lr r hsz' hlr hr
          dsimp only
          rw [hc]
          dsimp only
          rw [update_metadata_node]
          obtain ⟨t, ht, htm, htl⟩ := rebalance_spec _ ll c hll hcm
          refine ⟨t, ht, htm, ?_⟩
          rw [htl, hcl]
          simp [leaves, List.append_assoc]

/-- `concat` on two non-`NULL` metadata-correct AVL ropes returns an
AVL rope whose height is the taller input's height or one more. -/
theorem concatF_bal (fuel : Nat) :
    ∀ l r : Rope, sizeN l + sizeN r ≤ fuel →
      metaOk l = true → metaOk r = true →
      balOk l = true → balOk r = true →
      ∃ t, concatF fuel (some l) (some r) = some t ∧ metaOk t = true ∧
        balOk t = true ∧ leaves t = leaves l ++ leaves r ∧
        max (realHeight l) (realHeight r) ≤ realHeight t ∧
        realHeight t ≤ max (realHeight l) (realHeight r) + 1 := by
  induction fuel with
  | zero =>
      intro l r hsz _ _ _ _
      have := sizeN_pos l
      have := sizeN_pos r
      omega
  | succ fuel ih =>
      intro l r hsz hl hr hbl hbr
      have hlh := stored_height_eq l hl
      have hrh := stored_height_eq r hr
      have hlp := realHeight_pos l
      have hrp := realHeight_pos r
      simp only [concatF, node_height_some]
      by_cases hA : -1 ≤ r.height - l.height ∧ r.height - l.height ≤ 1
      · rw [if_pos hA]
        refine ⟨_, rfl, metaOk_update_metadata_node _ _ _ hl hr, ?_, ?_, ?_, ?_⟩
        · rw [balOk_update_metadata, balOk_node_iff]
          exact ⟨hbl, hbr, by omega, by omega⟩
        · rw [leaves_update_metadata]; rfl
        · simp only [realHeight_update_metadata, realHeight_node]; omega
        · simp only [realHeight_update_metadata, realHeight_node]; omega
      · rw [if_neg hA]
        by_cases hB : 2 ≤ r.height - l.height
        · rw [if_pos hB]
          obtain ⟨mr, rl, rr, rfl⟩ : ∃ mr rl rr, r = .node mr rl rr :=
            internal_of_two_le_height r hr (by omega)
          obtain ⟨hrl, hrr, -, -, -, -⟩ := (metaOk_node_iff _ _ _).1 hr
          obtain ⟨hbrl, hbrr, hb1, hb2⟩ := (balOk_node_iff _ _ _).1 hbr
          have hrlh := stored_height_eq rl hrl
          have hrrh := stored_height_eq rr hrr
          have hrlp := realHeight_pos rl
          have hrrp := realHeight_pos rr
          have hrH : realHeight (Rope.node mr rl rr) =
              1 + max (realHeight rl) (realHeight rr) := rfl
          have hsz' : sizeN l + sizeN rl ≤ fuel := by
            have := sizeN_pos rr
            simp only [sizeN] at hsz
            omega
          obtain ⟨c, hc, hcm, hcb, hcl, hclo, hchi⟩ := ih l rl hsz' hl hrl hbl hbrl
          dsimp only
          rw [hc]
          dsimp only
          rw [update_metadata_node]
          obtain ⟨t, ht, htm, htb, htl, htlo, hthi, htex⟩ :=
            rebalance_bal _ c rr hcm hrr hcb hbrr (by omega) (by omega)
          refine ⟨t, ht, htm, htb, ?_, ?_, ?_⟩
          · rw [htl, hcl]
            simp [leaves, List.append_assoc]
          · by_cases hsmall : realHeight rr - realHeight c ≤ 1 ∧
                realHeight c - realHeight rr ≤ 1
            · have := htex hsmall.1 hsmall.2
              omega
            · omega
          · omega
        · rw [if_neg hB, if_pos (by omega)]
          obtain ⟨ml, ll, lr, rfl⟩ : ∃ ml ll lr, l = .node ml ll lr :=
            internal_of_two_le_height l hl (by omega)
          obtain ⟨hll, hlr, -, -, -, -⟩ := (metaOk_node_iff _ _ _).1 hl
          obtain ⟨hbll, hblr, hb1, hb2⟩ := (balOk_node_iff _ _ _).1 hbl
          have hllh := stored_height_eq ll hll
          have hlrh := stored_height_eq lr hlr
          have hllp := realHeight_pos ll
          have hlrp := realHeight_pos lr
          have hlH : realHeight (Rope.node ml ll lr) =
              1 + max (realHeight ll) (realHeight lr) := rfl
          have hsz' : sizeN lr + sizeN r ≤ fuel := by
            have := sizeN_pos ll
            simp only [sizeN] at hsz
            omega
          obtain ⟨c, hc, hcm, hcb, hcl, hclo, hchi⟩ := ih lr r hsz' hlr hr hblr hbr
          dsimp only
          rw [hc]
          dsimp only
          rw [update_metadata_node]
          obtain ⟨t, ht, htm, htb, htl, htlo, hthi, htex⟩ :=
            rebalance_bal _ ll c hll hcm hbll hcb (by omega) (by omega)
          refine ⟨t, ht, htm, htb, ?_, ?_, ?_⟩
          · rw [htl, hcl]
            simp [leaves, List.append_assoc]
          · by_cases hsmall : realHeight c - realHeight ll ≤ 1 ∧
                realHeight ll - realHeight c ≤ 1
            · have := htex hsmall.1 hsmall.2
              omega
            · omega
          · omega

theorem fuelFor_some_some (l r : Rope) :
    fuelFor (some l) (some r) = sizeN l + sizeN r := rfl

/-- `concat` on two non-`NULL` metadata-correct trees: completion,
metadata correctness, and leaf-sequence concatenation. -/
theorem concat_spec (l r : Rope)
    (hl : metaOk l = true) (hr : metaOk r = true) :
    ∃ t, concat (some l) (some r) = some t ∧ metaOk t = true ∧
      leaves t = leaves l ++ leaves r :=
  concatF_spec (sizeN l + sizeN r) l r le_rfl hl hr

/-- `concat` on two non-`NULL` metadata-correct AVL ropes additionally
preserves the AVL property and adds at most one level of height. -/
theorem concat_bal (l r : Rope)
    (hl : metaOk l = true) (hr : metaOk r = true)
    (hbl : balOk l = true) (hbr : balOk r = true) :
    ∃ t, concat (some l) (some r) = some t ∧ metaOk t = true ∧
      balOk t = true ∧ leaves t = leaves l ++ leaves r ∧
      max (realHeight l) (realHeight r) ≤ realHeight t ∧
      realHeight t ≤ max (realHeight l) (realHeight r) + 1 :=
  concatF_bal (sizeN l + sizeN r) l r le_rfl hl hr hbl hbr

theorem concat_none_left (r : Option Rope) : concat none r = r := by
  cases r <;> rfl

theorem concat_left_none (l : Option Rope) : concat l none = l := by
  cases l <;> rfl

/-- One builder step (`root = concat(root, create_leaf(chunk))`) keeps
the running rope metadata-correct and AVL and appends one leaf. -/
theorem build_step (acc : Option Rope) (c : List Char)
    (hm : metaOkO acc = true) (hb : balOkO acc = true) :
    ∃ res : Rope, concat acc (some (create_leaf c)) = some res ∧
      metaOk res = true ∧ balOk res = true ∧
      leaves res = leavesO acc ++ [c] := by
  cases acc with
  | none =>
      exact ⟨create_leaf c, concat_none_left _, metaOk_create_leaf c,
        balOk_create_leaf c, rfl⟩
  | some t =>
      obtain ⟨res, h1, h2, h3, h4, -, -⟩ :=
        concat_bal t (create_leaf c) hm (metaOk_create_leaf c)
          hb (balOk_create_leaf c)
      exact ⟨res, h1, h2, h3, by rw [h4, leaves_create_leaf]; rfl⟩

/-- The builder fold keeps the rope metadata-correct and AVL, and the
final leaf sequence is the accumulated leaves followed by the chunks in
order. -/
theorem build_fold (cs : List (List Char)) :
    ∀ acc : Option Rope, metaOkO acc = true → balOkO acc = true →
      metaOkO (cs.foldl
        (fun root chunk => concat root (some (create_leaf chunk))) acc) = true ∧
      balOkO (cs.foldl
        (fun root chunk => concat root (some (create_leaf chunk))) acc) = true ∧
      leavesO (cs.foldl
        (fun root chunk => concat root (some (create_leaf chunk))) acc) =
        leavesO acc ++ cs := by
  induction cs with
  | nil => intro acc hm hb; simpa using ⟨hm, hb⟩
  | cons c cs ih =>
      intro acc hm hb
      obtain ⟨res, h1, h2, h3, h4⟩ := build_step acc c hm hb
      simp only [List.foldl_cons, h1]
      obtain ⟨g1, g2, g3⟩ := ih (some res) h2 h3
      refine ⟨g1, g2, ?_⟩
      rw [g3]
      simp [leavesO, h4]

theorem build_rope_spec (cs : List (List Char)) :
    metaOkO (build_rope cs) = true ∧ balOkO (build_rope cs) = true ∧
    leavesO (build_rope cs) = cs := by
  have := build_fold cs none rfl rfl
  simpa [build_rope, leavesO] using this

theorem print_text_eq_flatten (o : Option Rope) :
    print_text o = (leavesO o).flatten := by
  cases o with
  | none => rfl
  | some t => exact printTextR_eq_flatten_leaves t

/-- Recursion-depth bound for `concat`: on metadata-correct inputs the
number of nested activations never exceeds the taller input's height. -/
theorem depthF_le (fuel : Nat) :
    ∀ l r : Rope, sizeN l + sizeN r ≤ fuel →
      metaOk l = true → metaOk r = true →
      (depthF fuel l r : Int) ≤ max (realHeight l) (realHeight r) := by
  induction fuel with
  | zero =>
      intro l r hsz _ _
      have := sizeN_pos l
      have := sizeN_pos r
      omega
  | succ fuel ih =>
      intro l r hsz hl hr
      have hlh := stored_height_eq l hl
      have hrh := stored_height_eq r hr
      have hlp := realHeight_pos l
      have hrp := realHeight_pos r
      simp only [depthF, node_height_some]
      by_cases hA : -1 ≤ r.height - l.height ∧ r.height - l.height ≤ 1
      · rw [if_pos hA]; push_cast; omega
      · rw [if_neg hA]
        by_cases hB : 2 ≤ r.height - l.height
        · rw [if_pos hB]
          obtain ⟨mr, rl, rr, rfl⟩ : ∃ mr rl rr, r = .node mr rl rr :=
            internal_of_two_le_height r hr (by omega)
          obtain ⟨hrl, hrr, -, -, -, -⟩ := (metaOk_node_iff _ _ _).1 hr
          have hrlh := stored_height_eq rl hrl
          have hrrh := stored_height_eq rr hrr
          have hrlp := realHeight_pos rl
          have hrrp := realHeight_pos rr
          have hrH : realHeight (Rope.node mr rl rr) =
              1 + max (realHeight rl) (realHeight rr) := rfl
          have hsz' : sizeN l + sizeN rl ≤ fuel := by
            have := sizeN_pos rr
            simp only [sizeN] at hsz
            omega
          have := ih l rl hsz' hl hrl
          dsimp only
          push_cast
          omega
        · rw [if_neg hB, if_pos (by omega)]
          obtain ⟨ml, ll, lr, rfl⟩ : ∃ ml ll lr, l = .node ml ll lr :=
            internal_of_two_le_height l hl (by omega)
          obtain ⟨hll, hlr, -, -, -, -⟩ := (metaOk_node_iff _ _ _).1 hl
          have hllh := stored_height_eq ll hll
          have hlrh := stored_height_eq lr hlr
          have hllp := realHeight_pos ll
          have hlrp := realHeight_pos lr
          have hlH : realHeight (Rope.node ml ll lr) =
              1 + max (realHeight ll) (realHeight lr) := rfl
          have hsz' : sizeN lr + sizeN r ≤ fuel := by
            have := sizeN_pos ll
            simp only [sizeN] at hsz
            omega
          have := ih lr r hsz' hlr hr
          dsimp only
          push_cast
          omega

/-!
## Claim theorems
-/

/-- C1: for all ropes `A` and `B`, including when either is the empty
rope (`NULL`), the materialized text of `concat(A, B)` is the
materialized text of `A` followed by that of `B`, and `concat` only
regroups the in-order leaf sequence — it never reorders it. -/
theorem c1_concat_order_preservation (A B : Option Rope)
    (hA : metaOkO A = true) (hB : metaOkO B = true) :
    print_text (concat A B) = print_text A ++ print_text B ∧
    leavesO (concat A B) = leavesO A ++ leavesO B := by
  cases A with
  | none =>
      rw [concat_none_left]
      simp [print_text, leavesO]
  | some a =>
      cases B with
      | none =>
          rw [concat_left_none]
          simp [print_text, leavesO]
      | some b =>
          obtain ⟨t, h1, -, h3⟩ := concat_spec a b hA hB
          rw [h1]
          refine ⟨?_, ?_⟩
          · simp only [print_text, printTextR_eq_flatten_leaves, h3,
              List.flatten_append]
          · simp only [leavesO, h3]

theorem c1_witness :
    print_text (concat (some (create_leaf ['a', 'b']))
        (some (create_leaf ['c']))) =
      print_text (some (create_leaf ['a', 'b'])) ++
      print_text (some (create_leaf ['c'])) :=
  (c1_concat_order_preservation _ _ (by decide) (by decide)).1

/-- C2: every rope produced purely by the incremental builder (folding
any finite chunk sequence through `root = concat(root, create_leaf(chunk))`
starting from the empty rope) satisfies the AVL property at every
internal node, regardless of input order or chunk size. -/
theorem c2_builder_avl (chunks : List (List Char)) (t : Rope)
    (h : build_rope chunks = some t) : balOk t = true := by
  have hb := (build_rope_spec chunks).2.1
  rw [h] at hb
  exact hb

theorem c2_witness :
    balOk (Rope.node ⟨2, 3, 3, 0⟩
      (Rope.node ⟨1, 2, 2, 0⟩ (Rope.leaf ⟨1, 1, 1, 0⟩ ['a'])
        (Rope.leaf ⟨1, 1, 1, 0⟩ ['b']))
      (Rope.leaf ⟨1, 1, 1, 0⟩ ['c'])) = true :=
  c2_builder_avl [['a'], ['b'], ['c']] _ (by decide)

/-- C3 counterexample: `rebalance` entered on a node with skew `3`
(metadata-correct children of true heights 1 and 4) is NOT treated as a
fatal assertion — the C code's final `return node` (whose own comment
reads "If skew = -1, 0, 1 or anything else") silently returns the node
with only its metadata recomputed, no rotation and no abort. -/
theorem c3_counterexample :
    metaOk cex3_left = true ∧ metaOk cex3_right = true ∧
    get_skew (some (update_metadata
      (.node ⟨0, 0, 0, 0⟩ cex3_left cex3_right))) = 3 ∧
    rebalance (some (.node ⟨0, 0, 0, 0⟩ cex3_left cex3_right)) =
      some (update_metadata (.node ⟨0, 0, 0, 0⟩ cex3_left cex3_right)) := by
  decide

/-- C3 amended: when `rebalance` is entered on a node whose skew
magnitude exceeds 2, the node is returned as-is (after metadata
recomputation): the condition is silently tolerated, with no rotation
and no fatal assertion. -/
theorem c3_amended_rebalance_silently_tolerates (m : Meta) (l r : Rope)
    (h : 3 ≤ r.height - l.height ∨ r.height - l.height ≤ -3) :
    rebalance (some (.node m l r)) =
      some (update_metadata (.node m l r)) :=
  rebalance_fallthrough_eq m l r (by omega)

theorem c3_witness :
    rebalance (some (.node ⟨5, 5, 5, 5⟩ cex3_left cex3_right)) =
      some (update_metadata (.node ⟨5, 5, 5, 5⟩ cex3_left cex3_right)) :=
  c3_amended_rebalance_silently_tolerates _ _ _ (by decide)

/-- C4: evaluation of the heap-model rotations.  First part — the
failing input: `rotate_right` applied to the valid two-leaf rope
`y(0) = node(x(1) = leaf "a", leaf "b")`, where `B = x->right == NULL`.
Contrary to the claim ("this rewiring of y.left happens in every case,
including when B is absent/NULL"), the guarded `if (B != NULL)` block is
skipped and `y->left` is left pointing at `x`, while `x->right = y` has
already been installed — a cycle, not `y.left = NULL`.  Second part —
a normal input with a grandparent `g(5)`: the rotation behaves exactly
as claimed: `x` returned, `g`'s child slot rewired to `x`, `x` inherits
`y`'s former parent, `y.left` becomes `B`, and metadata is recomputed
for `y` first, then `x` (visible in `x.height = 3` using `y`'s new
height 2).  Third part — `rotate_left` is the mirror, exercised with the
rotated node in the grandparent's right slot. -/
theorem c4_rotate_right_null_b_divergence :
    (((rotate_right_h hFail (some 0)).1 0).map (fun n => n.cleft) =
        some (some 1) ∧
      ((rotate_right_h hFail (some 0)).1 1).map (fun n => n.cright) =
        some (some 0) ∧
      (rotate_right_h hFail (some 0)).2 = some 1) ∧
    ((rotate_right_h hNorm (some 0)).2 = some 1 ∧
      ((rotate_right_h hNorm (some 0)).1 5).map (fun n => n.cleft) =
        some (some 1) ∧
      ((rotate_right_h hNorm (some 0)).1 1).map
          (fun n => (n.cleft, n.cright, n.cparent, n.cheight,
                     n.ctotal_len, n.cweight)) =
        some (some 2, some 0, some 5, 3, 3, 1) ∧
      ((rotate_right_h hNorm (some 0)).1 0).map
          (fun n => (n.cleft, n.cright, n.cparent, n.cheight,
                     n.ctotal_len, n.cweight)) =
        some (some 3, some 4, some 1, 2, 2, 1)) ∧
    ((rotate_left_h hNormL (some 0)).2 = some 2 ∧
      ((rotate_left_h hNormL (some 0)).1 5).map (fun n => n.cright) =
        some (some 2) ∧
      ((rotate_left_h hNormL (some 0)).1 2).map
          (fun n => (n.cleft, n.cright, n.cparent, n.cheight)) =
        some (some 0, some 4, some 5, 3) ∧
      ((rotate_left_h hNormL (some 0)).1 0).map
          (fun n => (n.cleft, n.cright, n.cparent, n.cheight)) =
        some (some 1, some 3, some 2, 2)) :=
  ⟨⟨rfl, rfl, rfl⟩, ⟨rfl, rfl, rfl, rfl⟩, ⟨rfl, rfl, rfl, rfl⟩⟩

/-- C5: after every completed operation — `create_leaf`, `concat`,
`rotate_left` / `rotate_right` (on the shapes they are designed for,
with metadata-correct subtrees), `rebalance`, and every builder fold —
every node of the resulting rope stores exactly the defining metadata
formulas: metadata is never stale. -/
theorem c5_metadata_never_stale :
    (∀ s, metaOk (create_leaf s) = true) ∧
    (∀ l r t, metaOk l = true → metaOk r = true →
      concat (some l) (some r) = some t → metaOk t = true) ∧
    (∀ my mx a b c t, metaOk a = true → metaOk b = true →
      metaOk c = true →
      rotate_right (some (.node my (.node mx a b) c)) = some t →
      metaOk t = true) ∧
    (∀ mx my a b c t, metaOk a = true → metaOk b = true →
      metaOk c = true →
      rotate_left (some (.node mx a (.node my b c))) = some t →
      metaOk t = true) ∧
    (∀ m s t, rebalance (some (.leaf m s)) = some t → metaOk t = true) ∧
    (∀ m l r t, metaOk l = true → metaOk r = true →
      rebalance (some (.node m l r)) = some t → metaOk t = true) ∧
    (∀ cs t, build_rope cs = some t → metaOk t = true) := by
  refine ⟨metaOk_create_leaf, ?_, ?_, ?_, ?_, ?_, ?_⟩
  · intro l r t hl hr h
    obtain ⟨t', h1, h2, -⟩ := concat_spec l r hl hr
    rw [h1] at h
    injection h with h
    exact h ▸ h2
  · intro my mx a b c t ha hb hc h
    rw [rotate_right_eq] at h
    injection h with h
    exact h ▸ metaOk_rot_result' _ _ _ _ _ ha hb hc
  · intro mx my a b c t ha hb hc h
    rw [rotate_left_eq] at h
    injection h with h
    exact h ▸ metaOk_rot_result _ _ _ _ _ ha hb hc
  · intro m s t h
    have he : rebalance (some (.leaf m s)) =
        some (update_metadata (.leaf m s)) := rfl
    rw [he] at h
    injection h with h
    exact h ▸ metaOk_update_metadata_leaf m s
  · intro m l r t hl hr h
    obtain ⟨t', h1, h2, -⟩ := rebalance_spec m l r hl hr
    rw [h1] at h
    injection h with h
    exact h ▸ h2
  · intro cs t h
    have hm := (build_rope_spec cs).1
    rw [h] at hm
    exact hm

theorem c5_witness :
    metaOk (Rope.node ⟨1, 2, 2, 0⟩ (Rope.leaf ⟨1, 1, 1, 0⟩ ['a'])
      (Rope.leaf ⟨1, 1, 1, 0⟩ ['b'])) = true ∧
    metaOk (update_metadata (.node ⟨1, 1, 1, 0⟩
      (Rope.leaf ⟨1, 1, 1, 0⟩ ['a'])
      (update_metadata (.node ⟨9, 9, 9, 9⟩ (Rope.leaf ⟨1, 1, 1, 0⟩ ['b'])
        (Rope.leaf ⟨1, 1, 1, 0⟩ ['c']))))) = true :=
  ⟨c5_metadata_never_stale.2.1 (create_leaf ['a']) (create_leaf ['b']) _
      (by decide) (by decide) (by decide),
   c5_metadata_never_stale.2.2.1 ⟨9, 9, 9, 9⟩ ⟨1, 1, 1, 0⟩
      (Rope.leaf ⟨1, 1, 1, 0⟩ ['a']) (Rope.leaf ⟨1, 1, 1, 0⟩ ['b'])
      (Rope.leaf ⟨1, 1, 1, 0⟩ ['c']) _
      (by decide) (by decide) (by decide) (by decide)⟩

/-- C6 counterexample: the claim's "each recursive step strictly
decreases the height gap" fails on merely metadata-correct trees:
`c6l` (height 4) and `c6r = node(c6rl, c6rr)` (height 6, metadata
correct) have `skew = 2`, so `concat` recurses into `(c6l, c6r.left)`,
but the height gap grows from 2 to 3. -/
theorem c6_counterexample :
    metaOk c6l = true ∧ metaOk c6r = true ∧
    c6r = Rope.node ⟨1, 6, 6, 0⟩ c6rl c6rr ∧
    2 ≤ realHeight c6r - realHeight c6l ∧
    ¬ (|realHeight c6rl - realHeight c6l| <
       |realHeight c6r - realHeight c6l|) := by
  decide

/-- C6 amended: `concat` terminates on every pair of metadata-correct
trees with recursion depth bounded by the taller input's height (the
embedded `concatF` with node-count fuel never exhausts it); the height
gap strictly decreases at each recursive step when the inputs are
additionally AVL-balanced — not for merely metadata-correct trees. -/
theorem c6_amended_depth_and_gap :
    (∀ l r : Rope, metaOk l = true → metaOk r = true →
      (concat_depth l r : Int) ≤ max (realHeight l) (realHeight r)) ∧
    (∀ m rl rr (l : Rope), metaOk l = true →
      metaOk (Rope.node m rl rr) = true →
      balOk l = true → balOk (Rope.node m rl rr) = true →
      2 ≤ realHeight (Rope.node m rl rr) - realHeight l →
      |realHeight rl - realHeight l| <
        |realHeight (Rope.node m rl rr) - realHeight l|) ∧
    (∀ m ll lr (r : Rope), metaOk r = true →
      metaOk (Rope.node m ll lr) = true →
      balOk r = true → balOk (Rope.node m ll lr) = true →
      2 ≤ realHeight (Rope.node m ll lr) - realHeight r →
      |realHeight lr - realHeight r| <
        |realHeight (Rope.node m ll lr) - realHeight r|) := by
  refine ⟨fun l r hl hr => depthF_le _ l r le_rfl hl hr, ?_, ?_⟩
  · intro m rl rr l hl hr hbl hbr hskew
    obtain ⟨-, -, hb1, hb2⟩ := (balOk_node_iff _ _ _).1 hbr
    have hH : realHeight (Rope.node m rl rr) =
        1 + max (realHeight rl) (realHeight rr) := rfl
    have hrlp := realHeight_pos rl
    have hrrp := realHeight_pos rr
    have hlp := realHeight_pos l
    rw [abs_of_nonneg (by omega), abs_of_nonneg (by omega)]
    omega
  · intro m ll lr r hr hl hbr hbl hskew
    obtain ⟨-, -, hb1, hb2⟩ := (balOk_node_iff _ _ _).1 hbl
    have hH : realHeight (Rope.node m ll lr) =
        1 + max (realHeight ll) (realHeight lr) := rfl
    have hllp := realHeight_pos ll
    have hlrp := realHeight_pos lr
    have hrp := realHeight_pos r
    rw [abs_of_nonneg (by omega), abs_of_nonneg (by omega)]
    omega

theorem c6_witness :
    (concat_depth (create_leaf ['a']) (create_leaf ['b']) : Int) ≤
      max (realHeight (create_leaf ['a'])) (realHeight (create_leaf ['b'])) ∧
    |realHeight (Rope.node ⟨1, 2, 2, 0⟩ (Rope.leaf ⟨1, 1, 1, 0⟩ ['c'])
        (Rope.leaf ⟨1, 1, 1, 0⟩ ['d'])) - realHeight (create_leaf ['e'])| <
      |realHeight (Rope.node ⟨2, 4, 3, 0⟩
          (Rope.node ⟨1, 2, 2, 0⟩ (Rope.leaf ⟨1, 1, 1, 0⟩ ['c'])
            (Rope.leaf ⟨1, 1, 1, 0⟩ ['d']))
          (Rope.node ⟨1, 2, 2, 0⟩ (Rope.leaf ⟨1, 1, 1, 0⟩ ['f'])
            (Rope.leaf ⟨1, 1, 1, 0⟩ ['g']))) - realHeight (create_leaf ['e'])| :=
  ⟨c6_amended_depth_and_gap.1 _ _ (by decide) (by decide),
   c6_amended_depth_and_gap.2.1 ⟨2, 4, 3, 0⟩ _ _ (create_leaf ['e'])
      (by decide) (by decide) (by decide) (by decide) (by decide)⟩

/-- C7: `concat(empty, R)` returns `R` itself and `concat(L, empty)`
returns `L` itself (identity law); hence `concat` of two empty ropes is
the empty rope. -/
theorem c7_concat_identity :
    (∀ R : Option Rope, concat none R = R) ∧
    (∀ L : Option Rope, concat L none = L) ∧
    concat none none = none :=
  ⟨concat_none_left, concat_left_none, rfl⟩

/-- C8: building a rope from any chunk decomposition of a text always
materializes to exactly that text: the built rope's printed text is the
concatenation of the chunks, so any two decompositions of the same text
materialize identically. -/
theorem c8_chunking_invariance :
    (∀ chunks : List (List Char),
      print_text (build_rope chunks) = chunks.flatten) ∧
    (∀ cs1 cs2 : List (List Char), cs1.flatten = cs2.flatten →
      print_text (build_rope cs1) = print_text (build_rope cs2)) := by
  have h1 : ∀ chunks : List (List Char),
      print_text (build_rope chunks) = chunks.flatten := by
    intro chunks
    rw [print_text_eq_flatten, (build_rope_spec chunks).2.2]
  exact ⟨h1, fun cs1 cs2 h => by rw [h1 cs1, h1 cs2, h]⟩

theorem c8_witness :
    print_text (build_rope [['a'], ['b'], ['c', 'd']]) =
      print_text (build_rope [['a', 'b', 'c'], ['d']]) :=
  c8_chunking_invariance.2 _ _ (by decide)

/-- C9: the three skew cases of `concat` are exhaustive over the
integers (so the trailing `return NULL` fallback is dead code), and
concatenating two non-empty (metadata-correct) ropes never yields the
empty rope. -/
theorem c9_concat_skew_exhaustive_never_null :
    (∀ skew : Int, (-1 ≤ skew ∧ skew ≤ 1) ∨ 2 ≤ skew ∨ skew ≤ -2) ∧
    (∀ l r : Rope, metaOk l = true → metaOk r = true →
      concat (some l) (some r) ≠ none) := by
  refine ⟨fun skew => by omega, ?_⟩
  intro l r hl hr h
  obtain ⟨t, h1, -, -⟩ := concat_spec l r hl hr
  rw [h1] at h
  exact Option.noConfusion h

theorem c9_witness :
    concat (some (create_leaf ['a'])) (some (create_leaf ['b'])) ≠ none :=
  c9_concat_skew_exhaustive_never_null.2 _ _ (by decide) (by decide)

/-- C10: `create_leaf` on the empty string returns a leaf node — not
`NULL` — with weight 0, total_len 0, height 1, newlines 0; therefore
concatenating such an empty leaf onto a rope changes the tree structure
(one more leaf in the in-order sequence, so a different tree) even
though the materialized text is unchanged. -/
theorem c10_create_leaf_empty :
    create_leaf [] = Rope.leaf ⟨0, 0, 1, 0⟩ [] ∧
    (∀ A t, metaOk A = true →
      concat (some A) (some (create_leaf [])) = some t →
      leaves t = leaves A ++ [[]] ∧ t ≠ A ∧ printTextR t = printTextR A) := by
  refine ⟨rfl, ?_⟩
  intro A t hA h
  obtain ⟨t', h1, -, h3⟩ := concat_spec A (create_leaf []) hA (metaOk_create_leaf [])
  rw [h1] at h
  injection h with h
  subst h
  rw [leaves_create_leaf] at h3
  refine ⟨h3, ?_, ?_⟩
  · intro he
    have hlen := congrArg (fun x => (leaves x).length) he
    simp only [h3, List.length_append, List.length_cons,
      List.length_nil] at hlen
    omega
  · rw [printTextR_eq_flatten_leaves, h3, List.flatten_append,
      printTextR_eq_flatten_leaves A]
    simp

theorem c10_witness :
    leaves (Rope.node ⟨1, 1, 2, 0⟩ (Rope.leaf ⟨1, 1, 1, 0⟩ ['a'])
        (Rope.leaf ⟨0, 0, 1, 0⟩ [])) =
      leaves (create_leaf ['a']) ++ [[]] ∧
    Rope.node ⟨1, 1, 2, 0⟩ (Rope.leaf ⟨1, 1, 1, 0⟩ ['a'])
        (Rope.leaf ⟨0, 0, 1, 0⟩ []) ≠ create_leaf ['a'] ∧
    printTextR (Rope.node ⟨1, 1, 2, 0⟩ (Rope.leaf ⟨1, 1, 1, 0⟩ ['a'])
        (Rope.leaf ⟨0, 0, 1, 0⟩ [])) = printTextR (create_leaf ['a']) :=
  c10_create_leaf_empty.2 (create_leaf ['a']) _ (by decide) (by decide)
